import Mathlib

set_option linter.unusedVariables false

/-!
Verification development for the poirot translation-resolution core.

The definitions below are a shallow embedding of the TypeScript sources:
  * `src/src/concepts/sidebar/service.ts`   (TranslationService, SidebarService)
  * `src/src/concepts/translation/repository.ts` (TranslationRepository)
  * `src/src/concepts/sidebar/translation-keys-provider.ts` (TranslationKeysProvider.refresh)

Parsed JSON locale data is modelled by `JValue` (JSON numbers are restricted to
integers here; no claim depends on float formatting).  JavaScript `undefined`
is modelled by `Option.none` at the use sites.  Prototype-chain properties of
plain objects (e.g. `"toString" in obj`) and non-index array properties
(`"length" in arr`) are omitted from the `in`-operator model `jsStep`: their
values are functions or numbers, which the resolver maps to null in every
position, so they cannot alter any resolver result.
-/

/-- Parsed JSON value, the shape produced by `JSON.parse` in
`TranslationRepository.loadTranslations`. -/
inductive JValue where
  | str (s : String)
  | num (n : Int)
  | bool (b : Bool)
  | null
  | arr (elems : List JValue)
  | obj (fields : List (String × JValue))
deriving Repr

/-- A parsed locale-data object (`Record<string, unknown>` in the source):
the field list of a top-level JSON object.  `JSON.parse` yields objects with
distinct keys (later duplicates overwrite earlier ones), so field names are
assumed distinct; lookup takes the first occurrence. -/
def TranslationsObj : Type := List (String × JValue)

/-- JavaScript property read `fields[key]` on a plain object (own properties
only, see the module docstring). -/
def lookupField (fields : List (String × JValue)) (key : String) : Option JValue :=
  (fields.find? (fun f => f.1 = key)).map (fun f => f.2)

/-- JavaScript truthiness of a `JValue`. -/
def jsTruthy : JValue → Bool
  | .str s => s ≠ ""
  | .num n => n ≠ 0
  | .bool b => b
  | .null => false
  | .arr _ => true
  | .obj _ => true

mutual

/-- JavaScript `String(v)` coercion.  Arrays join their elements with commas
(`Array.prototype.toString`); objects render as `[object Object]`. -/
def jsToString : JValue → String
  | .str s => s
  | .num n => toString n
  | .bool b => cond b "true" "false"
  | .null => "null"
  | .obj _ => "[object Object]"
  | .arr xs => String.intercalate "," (jsArrElems xs)

/-- Element rendering of the array join: `null` elements render as the empty
string, all others through `String(·)`. -/
def jsArrElems : List JValue → List String
  | [] => []
  | .null :: rest => "" :: jsArrElems rest
  | y :: rest => jsToString y :: jsArrElems rest

end

/-- JavaScript `Object.values(v)`, for the values reachable in
`processParaglideVariant` (`v` is truthy there, so `null` never occurs).
Strings expose their characters, primitives have no own enumerable
properties. -/
def jsObjectValues : JValue → List JValue
  | .obj fields => fields.map (fun f => f.2)
  | .arr xs => xs
  | .str s => s.toList.map (fun c => .str (String.mk [c]))
  | _ => []

/-- Decimal reading of a string of digits, the semantics of the library
function `String.toNat?` restated by structural recursion on the character
list (the library version does not reduce inside the kernel). -/
def strToNatOpt (s : String) : Option Nat :=
  if s.toList ≠ [] ∧ s.toList.all (fun c => c.isDigit) then
    some (s.toList.foldl (fun acc c => acc * 10 + (c.toNat - 48)) 0)
  else none

/-- One step of the `reduce` callback in `TranslationService.getNestedValue`
(service.ts lines 586-593): `current && typeof current === 'object' &&
key in current ? current[key] : undefined`.  Objects are traversable by field
name; arrays by canonical numeric index (JS `"0" in [x]` is true); strings,
numbers, booleans and null are not traversable (`typeof` / truthiness
checks). -/
def jsStep : JValue → String → Option JValue
  | .obj fields, seg => lookupField fields seg
  | .arr xs, seg =>
      match strToNatOpt seg with
      | some i => if seg = toString i then xs[i]? else none
      | none => none
  | _, _ => none

/-- JavaScript `key.includes('.')`. -/
def jsIncludesDot (key : String) : Bool :=
  key.toList.any (fun c => c = '.')

/-- Splitting a character list on a separator, the semantics of JavaScript
`String.prototype.split` with a single-character separator (and of the
library's `String.splitOn`, restated structurally so it reduces in the
kernel). -/
def splitOnChar (sep : Char) : List Char → List (List Char)
  | [] => [[]]
  | c :: rest =>
    if c = sep then [] :: splitOnChar sep rest
    else
      match splitOnChar sep rest with
      | [] => [[c]]
      | g :: gs => (c :: g) :: gs

/-- JavaScript `path.split('.')`. -/
def jsSplitDot (path : String) : List String :=
  (splitOnChar '.' path.toList).map String.mk

/-- `TranslationService.getNestedValue` (service.ts lines 586-593): dotted-path
descent by `path.split('.').reduce(...)` starting from the translations
object. -/
def getNestedValue (obj : TranslationsObj) (path : String) : Option JValue :=
  (jsSplitDot path).foldl (fun cur seg => cur.bind (fun v => jsStep v seg))
    (some (.obj obj))

/-- The `value` computed in `TranslationService.getTranslation` (service.ts
lines 549-557): nested lookup for keys containing a dot, flat top-level
lookup otherwise. -/
def resolvedLeaf (translations : TranslationsObj) (key : String) : Option JValue :=
  if jsIncludesDot key then getNestedValue translations key
  else lookupField translations key

/-- `TranslationService.processParaglideVariant` (service.ts lines 510-536):
take the first element of the variant array, require it to be a truthy object
with a truthy `match` property, and return `String(Object.values(match)[0])`.
Nothing in the body can throw on `JValue` data, so the `try/catch` is
invisible here. -/
def processParaglideVariant (variantArray : List JValue) : Option String :=
  match variantArray with
  | [] => none
  | firstVariant :: _ =>
    match firstVariant with
    | .obj fields =>
      match lookupField fields "match" with
      | some m =>
        if jsTruthy m then
          match jsObjectValues m with
          | [] => none
          | v :: _ => some (jsToString v)
        else none
      | none => none
    | _ => none

/-- `TranslationService.getTranslation` (service.ts lines 544-578).  A string
leaf is returned verbatim; an array leaf goes through
`processParaglideVariant` and, when the result is truthy (JS: non-empty),
gains a trailing `*`; anything else yields null.  The `if (!translations)`
guard is vacuous here because the argument type excludes null. -/
def getTranslation (translations : TranslationsObj) (key : String) : Option String :=
  match resolvedLeaf translations key with
  | none => none
  | some .null => none
  | some (.str s) => some s
  | some (.arr xs) =>
    match processParaglideVariant xs with
    | some variantValue =>
        if variantValue = "" then none else some (variantValue ++ "*")
    | none => none
  | some _ => none

/-- Recursive form of the dotted-path descent, used to state what
`getNestedValue`'s `reduce` computes. -/
def descend : JValue → List String → Option JValue
  | v, [] => some v
  | v, seg :: rest =>
    match jsStep v seg with
    | some v1 => descend v1 rest
    | none => none

/-- Modelled from the spec: descent that traverses only mapping nodes, the
reading of §4.3 in which any non-mapping intermediate node fails resolution.
Used to compare the spec's words with the source's `getNestedValue`. -/
def descendMappingOnly : JValue → List String → Option JValue
  | v, [] => some v
  | .obj fields, seg :: rest =>
    match lookupField fields seg with
    | some v1 => descendMappingOnly v1 rest
    | none => none
  | _, _ :: _ => none

/-- Key shape of a scanned call (`keyType: 'flat' | 'nested'`). -/
inductive KeyType where
  | flat
  | nested
deriving DecidableEq, Repr

/-- One located call (`TranslationCall` in service.ts).  `endPos` is the
source's `end` field (a Lean keyword).  Offsets are code-unit indices into the
scanned text, modelled as codepoint indices (they coincide for text in the
basic multilingual plane). -/
structure TranslationCall where
  methodName : String
  params : String
  start : Nat
  endPos : Nat
  keyType : KeyType
deriving DecidableEq, Repr

/-- The apostrophe character, one of the three quote delimiters of the nested
pattern. -/
def squote : Char := Char.ofNat 39

/-- The double-quote delimiter of the nested pattern. -/
def dquote : Char := Char.ofNat 34

/-- The back-tick delimiter of the nested pattern. -/
def btick : Char := Char.ofNat 96

/-- JavaScript regex `\w` (`[A-Za-z0-9_]`), used by the `\b` assertion. -/
def isWordChar (c : Char) : Bool := c.isAlphanum || c = '_'

/-- First character of the flat-pattern identifier: `[a-zA-Z_$]`. -/
def identStart (c : Char) : Bool := c.isAlpha || c = '_' || c = '$'

/-- Subsequent identifier characters: `[a-zA-Z0-9_$]`. -/
def identChar (c : Char) : Bool := c.isAlphanum || c = '_' || c = '$'

/-- JavaScript regex `\s` (WhiteSpace ∪ LineTerminator), also the set trimmed
by `String.prototype.trim`. -/
def jsSpace (c : Char) : Bool :=
  c = ' ' || c = '\t' || c = '\n' || c = '\r' ||
  c.val = 0x0b || c.val = 0x0c || c.val = 0xa0 || c.val = 0x1680 ||
  (0x2000 ≤ c.val && c.val ≤ 0x200a) ||
  c.val = 0x2028 || c.val = 0x2029 || c.val = 0x202f || c.val = 0x205f ||
  c.val = 0x3000 || c.val = 0xfeff

/-- JavaScript `String.prototype.trim`, applied to captured params. -/
def jsTrim (s : String) : String :=
  String.mk (((s.toList.dropWhile jsSpace).reverse.dropWhile jsSpace).reverse)

/-- Length of the maximal run of characters satisfying `p` starting at
index `i`. -/
def countWhile (p : Char → Bool) (cs : List Char) (i : Nat) : Nat :=
  ((cs.drop i).takeWhile p).length

/-- The `n` characters starting at index `i`. -/
def sliceChars (cs : List Char) (i n : Nat) : List Char :=
  (cs.drop i).take n

/-- JavaScript regex word-boundary assertion `\b` at index `p`, for patterns
whose first character is the word character `m`: satisfied at the start of the
text or after a non-word character. -/
def wordBoundary (cs : List Char) (p : Nat) : Bool :=
  match p with
  | 0 => true
  | q + 1 =>
    match cs[q]? with
    | some c => !isWordChar c
    | none => true

/-- The common suffix `\s*\(\s*([^)]*)\s*\)` of both call patterns, matched
starting at index `j`.  Returns the index one past the closing parenthesis
together with the trimmed captured argument text.  The regex engine's greedy
matching is deterministic here: identifier characters, whitespace and `(` are
pairwise disjoint and `[^)]*` cannot cross the first `)`, so shrinking an
earlier greedy run can never turn a failure into a match. -/
def parenTail (cs : List Char) (j : Nat) : Option (Nat × String) :=
  let ws1 := countWhile jsSpace cs j
  if cs[j + ws1]? = some '(' then
    let k := j + ws1 + 1
    let ws2 := countWhile jsSpace cs k
    let argLen := countWhile (fun c => !(c = ')')) cs (k + ws2)
    if cs[k + ws2 + argLen]? = some ')' then
      some (k + ws2 + argLen + 1, jsTrim (String.mk (sliceChars cs (k + ws2) argLen)))
    else none
  else none

/-- Attempt of the flat pattern
`\bm\.([a-zA-Z_$][a-zA-Z0-9_$]*)\s*\(\s*([^)]*)\s*\)` exactly at index `p`
(service.ts line 456). -/
def matchFlatAt (cs : List Char) (p : Nat) : Option TranslationCall :=
  if wordBoundary cs p ∧ cs[p]? = some 'm' ∧ cs[p + 1]? = some '.' then
    match cs[p + 2]? with
    | some c0 =>
      if identStart c0 then
        let identLen := 1 + countWhile identChar cs (p + 3)
        match parenTail cs (p + 2 + identLen) with
        | some (e, ps) =>
          some { methodName := String.mk (sliceChars cs (p + 2) identLen),
                 params := ps, start := p, endPos := e, keyType := .flat }
        | none => none
      else none
    | none => none
  else none

/-- Tail of the nested pattern after a key body of length `k`: the closing
quote `\1` at `p+3+k`, then `]`, then the paren suffix. -/
def nestedTail (cs : List Char) (p : Nat) (q : Char) (k : Nat) : Option TranslationCall :=
  if cs[p + 3 + k]? = some q ∧ cs[p + 4 + k]? = some ']' then
    match parenTail cs (p + 5 + k) with
    | some (e, ps) =>
      some { methodName := String.mk (sliceChars cs (p + 3) k),
             params := ps, start := p, endPos := e, keyType := .nested }
    | none => none
  else none

/-- Greedy backtracking for the key body `([^'"]+)`: try the longest body
first (`k` counts down), as the regex engine does.  Only the back-tick
delimiter can actually need backtracking, since the body may contain
back-ticks but never the other two quotes. -/
def nestedTryK (cs : List Char) (p : Nat) (q : Char) : Nat → Option TranslationCall
  | 0 => none
  | k + 1 =>
    match nestedTail cs p q (k + 1) with
    | some c => some c
    | none => nestedTryK cs p q k

/-- Attempt of the nested pattern
`\bm\[(['"`])([^'"]+)\1\]\s*\(\s*([^)]*)\s*\)` exactly at index `p`
(service.ts line 459). -/
def matchNestedAt (cs : List Char) (p : Nat) : Option TranslationCall :=
  if wordBoundary cs p ∧ cs[p]? = some 'm' ∧ cs[p + 1]? = some '[' then
    match cs[p + 2]? with
    | some q =>
      if q = squote ∨ q = dquote ∨ q = btick then
        nestedTryK cs p q (countWhile (fun c => !(c = squote) && !(c = dquote)) cs (p + 3))
      else none
    | none => none
  else none

/-- One global-regex scan: from index `p`, find the leftmost match, emit it,
and continue from the match's end (`lastIndex`).  `fuel` bounds the loop; each
iteration advances the index by at least one, so `length + 1` fuel reaches the
end of the text. -/
def scanLoop (m : List Char → Nat → Option TranslationCall) (cs : List Char) :
    Nat → Nat → List TranslationCall
  | 0, _ => []
  | fuel + 1, p =>
    match m cs p with
    | some c => c :: scanLoop m cs fuel c.endPos
    | none => scanLoop m cs fuel (p + 1)

/-- Stable insertion of a call into a list already sorted by `start`: the
inserted call goes before the first element with a `start` not below its own,
i.e. after every earlier-listed element with an equal `start`. -/
def insertByStart (a : TranslationCall) : List TranslationCall → List TranslationCall
  | [] => [a]
  | b :: bs => if a.start ≤ b.start then a :: b :: bs else b :: insertByStart a bs

/-- Stable sort by `start`, modelling
`calls.sort((a, b) => a.start - b.start)`.  JS `Array.prototype.sort` is
stable, and a stable sort's output is uniquely determined by the input order,
so stable insertion sort computes exactly the source's result. -/
def sortByStart : List TranslationCall → List TranslationCall
  | [] => []
  | a :: as => insertByStart a (sortByStart as)

/-- `TranslationService.findTranslationCalls` (service.ts lines 452-489): scan
the flat pattern, then the nested pattern, concatenate, and stable-sort by
`start`. -/
def findTranslationCalls (text : String) : List TranslationCall :=
  sortByStart
    (scanLoop matchFlatAt text.toList (text.toList.length + 1) 0
      ++ scanLoop matchNestedAt text.toList (text.toList.length + 1) 0)

/-- Warning kinds of a processed call (`'missingLocale' | 'noLocale'`);
`warningType = none` models the explicit `null` of the resolved case.  The
spec's three states map as: Resolved ≙ `none`, ResolvedElsewhere ≙
`some missingLocale`, Unresolved ≙ `some noLocale`. -/
inductive WarningType where
  | missingLocale
  | noLocale
deriving DecidableEq, Repr

/-- `TranslationResult` in service.ts: a call plus its resolution.
`foundInLocale = none` models the absent field. -/
structure TranslationResult extends TranslationCall where
  translationValue : Option String
  warningType : Option WarningType
  foundInLocale : Option String
deriving DecidableEq, Repr

/-- `TranslationService.searchKeyInAllLocales` (service.ts lines 602-632).
`loader` abstracts `loadTranslationsForLocale`, which returns null (`none`)
when the locale file is missing, unreadable or malformed; `availableLocales`
is `inlangSettings?.locales || ['en']`.  The body walks the configured list in
order, skips the current locale, and returns at the first truthy translation
(`if (translationValue)`).  Nothing in the body throws, so the `try/catch`
wrapper is invisible. -/
def searchKeyInAllLocales (loader : String → Option TranslationsObj) :
    List String → String → String → Option (String × String)
  | [], _, _ => none
  | locale :: rest, key, currentLocale =>
    if locale = currentLocale then searchKeyInAllLocales loader rest key currentLocale
    else
      match loader locale with
      | some translations =>
        match getTranslation translations key with
        | some translationValue =>
          if translationValue = "" then
            searchKeyInAllLocales loader rest key currentLocale
          else some (translationValue, locale)
        | none => searchKeyInAllLocales loader rest key currentLocale
      | none => searchKeyInAllLocales loader rest key currentLocale

/-- The loop body of `TranslationService.processTranslationCallsWithWarnings`
(service.ts lines 650-685) for one call: resolve against the current locale's
data; on a truthy value push the resolved record (`warningType: null`),
otherwise fall back to `searchKeyInAllLocales`. -/
def processCall (loader : String → Option TranslationsObj)
    (availableLocales : List String) (translations : TranslationsObj)
    (currentLocale : String) (call : TranslationCall) : TranslationResult :=
  match getTranslation translations call.methodName with
  | some v =>
    if v = "" then
      -- JS `if (currentTranslation)` is false for the empty string,
      -- so an empty-string resolution takes the fallback path.
      match searchKeyInAllLocales loader availableLocales call.methodName currentLocale with
      | some (tv, loc) =>
        { toTranslationCall := call, translationValue := some tv,
          warningType := some .missingLocale, foundInLocale := some loc }
      | none =>
        { toTranslationCall := call, translationValue := none,
          warningType := some .noLocale, foundInLocale := none }
    else
      { toTranslationCall := call, translationValue := some v,
        warningType := none, foundInLocale := none }
  | none =>
    match searchKeyInAllLocales loader availableLocales call.methodName currentLocale with
    | some (tv, loc) =>
      { toTranslationCall := call, translationValue := some tv,
        warningType := some .missingLocale, foundInLocale := some loc }
    | none =>
      { toTranslationCall := call, translationValue := none,
        warningType := some .noLocale, foundInLocale := none }

/-- `TranslationService.processTranslationCallsWithWarnings` (service.ts lines
642-688): one result is pushed per call, in order. -/
def processTranslationCallsWithWarnings (loader : String → Option TranslationsObj)
    (availableLocales : List String) (translationCalls : List TranslationCall)
    (translations : TranslationsObj) (currentLocale : String) :
    List TranslationResult :=
  translationCalls.map (processCall loader availableLocales translations currentLocale)

/-- Per-locale entry of the sidebar data (`LocaleData` in service.ts). -/
structure LocaleData where
  locale : String
  value : String
  workspacePath : String
deriving DecidableEq, Repr

/-- Per-key entry of the sidebar data (`TranslationKeyData` in service.ts). -/
structure TranslationKeyData where
  key : String
  locales : List LocaleData
deriving DecidableEq, Repr

/-- The inner locale loop of `SidebarService.getTranslationData` (service.ts
lines 65-82): each configured locale whose data loads and whose resolution is
non-null (`translationValue !== null` — the empty string counts) contributes
an entry, in configured order. -/
def localesFor (loader : String → Option TranslationsObj)
    (availableLocales : List String) (projectPath : String) (key : String) :
    List LocaleData :=
  availableLocales.filterMap (fun locale =>
    match loader locale with
    | some translations =>
      match getTranslation translations key with
      | some v => some { locale := locale, value := v, workspacePath := projectPath }
      | none => none
    | none => none)

/-- `SidebarService.getTranslationData` (service.ts lines 38-95), after the
host-environment guards (no document / no workspace folder, which return
`[]`).  One entry per scanned call, keeping only keys with at least one
contributing locale (`keyData.locales.length > 0`). -/
def getTranslationData (loader : String → Option TranslationsObj)
    (availableLocales : List String) (projectPath : String) (text : String) :
    List TranslationKeyData :=
  (findTranslationCalls text).filterMap (fun call =>
    if (localesFor loader availableLocales projectPath call.methodName).isEmpty then none
    else some { key := call.methodName,
                locales := localesFor loader availableLocales projectPath call.methodName })

/-- Outcome of reading a locale file from disk, abstracting the `fs` calls in
`TranslationRepository.loadTranslations`: the `existsSync` guard fails, or
`readFileSync` throws, or the file's text is obtained. -/
inductive FileRead where
  | missing
  | unreadable
  | content (s : String)

/-- `TranslationRepository.loadTranslations` (repository.ts lines 14-41),
with `parse` abstracting the platform's `JSON.parse` (`none` models a thrown
`SyntaxError`).  A missing file returns null; a thrown read or parse error is
caught and returns null; a successful parse is returned unvalidated — the
source never checks that the parsed value is an object. -/
def loadTranslations (fileRead : FileRead) (parse : String → Option JValue) :
    Option JValue :=
  match fileRead with
  | .missing => none
  | .unreadable => none
  | .content s =>
    match parse s with
    | some v => some v
    | none => none

/-- A recorded refresh request (`PendingRefresh` in
translation-keys-provider.ts); the document is identified by its path. -/
structure PendingRefresh where
  document : Option String
  force : Bool
deriving DecidableEq, Repr

/-- The coordinator state touched by `TranslationKeysProvider.refresh`:
the single-flight flag and the single pending-follow-up slot. -/
structure CoordState where
  refreshInProgress : Bool
  pendingRefresh : Option PendingRefresh
deriving DecidableEq, Repr

/-- Exit paths of the `try` body of `refresh`
(translation-keys-provider.ts lines 179-235): normal completion (line 234),
the preserve-context early return for translation files (line 196), the
early return after arming the clear timer (line 231), or a thrown error. -/
inductive PassOutcome where
  | updated
  | preserved
  | clearScheduled
  | raised
deriving DecidableEq, Repr

/-- Entry of `TranslationKeysProvider.refresh` (lines 170-177): if a pass is
in flight, overwrite the pending slot with this request and start nothing;
otherwise set the flag and start a pass with this request.  The returned list
is the passes whose body starts executing. -/
def refreshEnter (s : CoordState) (r : PendingRefresh) :
    CoordState × List PendingRefresh :=
  if s.refreshInProgress then
    ({ s with pendingRefresh := some r }, [])
  else
    ({ refreshInProgress := true, pendingRefresh := s.pendingRefresh }, [r])

/-- The `finally` block of `refresh` (lines 236-245): clear the flag, then, if
a follow-up was recorded, clear the slot and re-enter `refresh` with its
parameters (which immediately starts that pass, the state being idle). -/
def refreshFinally (s : CoordState) : CoordState × List PendingRefresh :=
  let s1 : CoordState := { refreshInProgress := false, pendingRefresh := s.pendingRefresh }
  match s1.pendingRefresh with
  | some pending => refreshEnter { s1 with pendingRefresh := none } pending
  | none => (s1, [])

/-- Completion of an in-flight pass.  JavaScript runs a `finally` block on
every exit from the `try` body — normal completion, early `return`, or a
thrown error — so every outcome takes the same `refreshFinally` path. -/
def refreshComplete (s : CoordState) (o : PassOutcome) :
    CoordState × List PendingRefresh :=
  match o with
  | .updated => refreshFinally s
  | .preserved => refreshFinally s
  | .clearScheduled => refreshFinally s
  | .raised => refreshFinally s

/-- A sequence of requests arriving in order (each a call to `refresh`),
collecting the passes started. -/
def applyRequests (s : CoordState) : List PendingRefresh → CoordState × List PendingRefresh
  | [] => (s, [])
  | r :: rs =>
    let step := refreshEnter s r
    let rest := applyRequests step.1 rs
    (rest.1, step.2 ++ rest.2)

/-- An event-loop turn touching the coordinator: a request arrives, or the
in-flight pass's body finishes with some outcome. -/
inductive CoordEvent where
  | request (r : PendingRefresh)
  | complete (o : PassOutcome)

/-- One coordinator step. -/
def coordStep (s : CoordState) : CoordEvent → CoordState × List PendingRefresh
  | .request r => refreshEnter s r
  | .complete o => refreshComplete s o

/-- Run a sequence of events, collecting all passes started. -/
def coordRun (s : CoordState) : List CoordEvent → CoordState × List PendingRefresh
  | [] => (s, [])
  | e :: es =>
    let step := coordStep s e
    let rest := coordRun step.1 es
    (rest.1, step.2 ++ rest.2)

/-- Event-sequence validity: a completion can only occur while a pass is in
flight. -/
def validFrom (s : CoordState) : List CoordEvent → Bool
  | [] => true
  | .request r :: es => validFrom (refreshEnter s r).1 es
  | .complete o :: es => s.refreshInProgress && validFrom (refreshComplete s o).1 es

/-- Number of pass completions in an event sequence. -/
def completesCount : List CoordEvent → Nat
  | [] => 0
  | .complete _ :: es => completesCount es + 1
  | .request _ :: es => completesCount es

/-- Last element of a request list, defaulting to `dflt`: the content of the
pending slot after a burst of requests. -/
def lastOf (rs : List PendingRefresh) (dflt : Option PendingRefresh) : Option PendingRefresh :=
  match rs with
  | [] => dflt
  | r :: rest => lastOf rest (some r)

/-- Loader with data only for locale `de` (spec §8.5 scenario). -/
def exLoaderDe : String → Option TranslationsObj :=
  fun locale => if locale = "de" then some [("k", .str "Guten Tag")] else none

/-- Loader where `fr` resolves the key to the empty string and `de` to a
non-empty one. -/
def exLoaderFrDe : String → Option TranslationsObj :=
  fun locale =>
    if locale = "fr" then some [("k", .str "")]
    else if locale = "de" then some [("k", .str "Guten Tag")] else none

/-- Loader with English data for the key `hello`. -/
def exLoaderEn : String → Option TranslationsObj :=
  fun locale => if locale = "en" then some [("hello", .str "Hi")] else none

/-- The nested locale data of spec §8.3. -/
def exNestedTr : TranslationsObj :=
  [("login", .obj [("inputs", .obj [("email", .str "Email")])])]

/-- Locale data whose top-level value is a variant list: a valid
`LocaleDataObject` in which a dotted key can traverse the array. -/
def exArrTr : TranslationsObj :=
  [("a", .arr [.obj [("match", .obj [("x", .str "Hi")])]])]

/-- The variant-list locale data of spec §8.4. -/
def exVariantTr : TranslationsObj :=
  [("greeting", .arr [.obj [("match", .obj [("x", .str "Hi")])],
                      .obj [("match", .obj [("x", .str "Yo")])]])]

/-- A scanned call for the flat key `k`. -/
def exCallK : TranslationCall :=
  { methodName := "k", params := "", start := 0, endPos := 5, keyType := .flat }

/-- Platform model: `JSON.parse` on the single input `"42"` (a well-formed
JSON document whose top-level value is the number 42). -/
def jsonParseNum42 : String → Option JValue :=
  fun s => if s = "42" then some (.num 42) else none

theorem applyRequests_inflight (rs : List PendingRefresh) :
    ∀ s : CoordState, s.refreshInProgress = true →
      (applyRequests s rs).2 = []
      ∧ (applyRequests s rs).1
          = { refreshInProgress := true, pendingRefresh := lastOf rs s.pendingRefresh } := by
  induction rs with
  | nil => intro s hs; cases s; simp_all [applyRequests, lastOf]
  | cons r rest ih =>
    intro s hs
    obtain ⟨flag, pend⟩ := s
    simp only at hs
    subst hs
    have h1 := ih ⟨true, some r⟩ rfl
    simp [applyRequests, refreshEnter, lastOf, h1.1, h1.2]

theorem lastOf_concat (rs : List PendingRefresh) (r : PendingRefresh) :
    ∀ dflt, lastOf (rs ++ [r]) dflt = some r := by
  induction rs with
  | nil => intro dflt; rfl
  | cons a rest ih => intro dflt; simpa [lastOf] using ih (some a)

theorem coordRun_flight_count (es : List CoordEvent) :
    ∀ s : CoordState, validFrom s es = true →
      (coordRun s es).2.length + (if s.refreshInProgress then 1 else 0)
        = completesCount es
          + (if (coordRun s es).1.refreshInProgress then 1 else 0) := by
  induction es with
  | nil => intro s _; simp [coordRun, completesCount]
  | cons e rest ih =>
    intro s hv
    obtain ⟨flag, pend⟩ := s
    cases e with
    | request r =>
      cases flag with
      | false =>
        have h := ih ⟨true, pend⟩ (by simpa [validFrom, refreshEnter] using hv)
        simp only [coordRun, coordStep, refreshEnter, completesCount] at h ⊢
        cases hfin : (coordRun ⟨true, pend⟩ rest).1.refreshInProgress <;>
          simp [hfin] at h ⊢ <;> omega
      | true =>
        have h := ih ⟨true, some r⟩ (by simpa [validFrom, refreshEnter] using hv)
        simp only [coordRun, coordStep, refreshEnter, completesCount] at h ⊢
        cases hfin : (coordRun ⟨true, some r⟩ rest).1.refreshInProgress <;>
          simp [hfin] at h ⊢ <;> omega
    | complete o =>
      cases flag with
      | false => simp [validFrom] at hv
      | true =>
        cases pend with
        | some p =>
          have hrc : refreshComplete ⟨true, some p⟩ o
              = ({ refreshInProgress := true, pendingRefresh := none }, [p]) := by
            cases o <;> simp [refreshComplete, refreshFinally, refreshEnter]
          have h := ih ⟨true, none⟩ (by simpa [validFrom, hrc] using hv)
          simp only [coordRun, coordStep, hrc, completesCount] at h ⊢
          cases hfin : (coordRun ⟨true, none⟩ rest).1.refreshInProgress <;>
            simp [hfin] at h ⊢ <;> omega
        | none =>
          have hrc : refreshComplete ⟨true, none⟩ o
              = ({ refreshInProgress := false, pendingRefresh := none }, []) := by
            cases o <;> simp [refreshComplete, refreshFinally]
          have h := ih ⟨false, none⟩ (by simpa [validFrom, hrc] using hv)
          simp only [coordRun, coordStep, hrc, completesCount] at h ⊢
          cases hfin : (coordRun ⟨false, none⟩ rest).1.refreshInProgress <;>
            simp [hfin] at h ⊢ <;> omega

/-- Claim C2: while a pass is in flight, a burst of refresh requests starts no
second pass; it leaves a single pending follow-up holding the last request's
parameters (earlier ones are dropped); when the in-flight pass completes
(whatever the body's outcome), exactly one more pass starts, with those
parameters, and the slot is cleared; a pass completing with an empty slot goes
idle, so the repetition stops when no follow-up remains.  The last conjunct is
the single-flight bound: over any valid event sequence starting from an
in-flight state, the number of passes started never exceeds the number of
completions. -/
theorem refresh_single_flight_coalescing_c2
    (s : CoordState) (rs : List PendingRefresh) (r : PendingRefresh)
    (hrun : s.refreshInProgress = true) :
    (applyRequests s (rs ++ [r])).2 = []
    ∧ (applyRequests s (rs ++ [r])).1
        = { refreshInProgress := true, pendingRefresh := some r }
    ∧ (∀ o, refreshComplete (applyRequests s (rs ++ [r])).1 o
        = ({ refreshInProgress := true, pendingRefresh := none }, [r]))
    ∧ (∀ o, refreshComplete { refreshInProgress := true, pendingRefresh := none } o
        = ({ refreshInProgress := false, pendingRefresh := none }, []))
    ∧ (∀ es, validFrom s es = true → (coordRun s es).2.length ≤ completesCount es) := by
  obtain ⟨h2, h1⟩ := applyRequests_inflight (rs ++ [r]) s hrun
  rw [lastOf_concat] at h1
  refine ⟨h2, h1, ?_, ?_, ?_⟩
  · intro o
    rw [h1]
    cases o <;> simp [refreshComplete, refreshFinally, refreshEnter]
  · intro o
    cases o <;> simp [refreshComplete, refreshFinally]
  · intro es hv
    have h := coordRun_flight_count es s hv
    rw [hrun] at h
    simp only [if_true] at h
    by_cases hfin : (coordRun s es).1.refreshInProgress <;> simp [hfin] at h <;> omega

/-- Witness for C2: the spec §8.6 scenario — three requests arrive while a
pass is in flight; none starts a pass, the slot holds the third request, and
completion starts exactly one pass with the third request's parameters. -/
theorem refresh_single_flight_coalescing_c2_witness :
    (applyRequests { refreshInProgress := true, pendingRefresh := none }
        [⟨some "a.ts", false⟩, ⟨some "b.ts", false⟩, ⟨some "c.ts", true⟩]).2 = []
    ∧ (applyRequests { refreshInProgress := true, pendingRefresh := none }
        [⟨some "a.ts", false⟩, ⟨some "b.ts", false⟩, ⟨some "c.ts", true⟩]).1
        = { refreshInProgress := true, pendingRefresh := some ⟨some "c.ts", true⟩ }
    ∧ refreshComplete { refreshInProgress := true, pendingRefresh := some ⟨some "c.ts", true⟩ }
        .updated
        = ({ refreshInProgress := true, pendingRefresh := none }, [⟨some "c.ts", true⟩]) := by
  have h := refresh_single_flight_coalescing_c2
    { refreshInProgress := true, pendingRefresh := none }
    [⟨some "a.ts", false⟩, ⟨some "b.ts", false⟩] ⟨some "c.ts", true⟩ rfl
  exact ⟨h.1, h.2.1, h.2.1 ▸ h.2.2.1 .updated⟩

/-- Claim C9: completing an in-flight pass behaves identically for every exit
path of the body (normal completion, either early return, or a thrown error —
the `finally` block runs on all of them); it always empties the pending slot,
executes a recorded follow-up as the next pass, and, when no follow-up was
recorded, leaves the coordinator idle — the completed pass never stays
Running. -/
theorem refresh_completion_not_stuck_c9
    (s : CoordState) (o o' : PassOutcome) (hrun : s.refreshInProgress = true) :
    refreshComplete s o = refreshComplete s o'
    ∧ (refreshComplete s o).2 = s.pendingRefresh.toList
    ∧ (refreshComplete s o).1.pendingRefresh = none
    ∧ (s.pendingRefresh = none →
        (refreshComplete s o).1 = { refreshInProgress := false, pendingRefresh := none })
    ∧ (∀ p, s.pendingRefresh = some p →
        (refreshComplete s o).1 = { refreshInProgress := true, pendingRefresh := none }
        ∧ (refreshComplete s o).2 = [p]) := by
  obtain ⟨flag, pend⟩ := s
  cases o <;> cases o' <;> cases pend <;>
    simp [refreshComplete, refreshFinally, refreshEnter, Option.toList]

/-- Witness for C9: a pass completes by throwing while a follow-up is
recorded; the follow-up still runs and the flag is not stuck. -/
theorem refresh_completion_not_stuck_c9_witness :
    refreshComplete { refreshInProgress := true, pendingRefresh := some ⟨some "a.ts", false⟩ }
        .raised
      = refreshComplete { refreshInProgress := true, pendingRefresh := some ⟨some "a.ts", false⟩ }
        .updated
    ∧ (refreshComplete { refreshInProgress := true, pendingRefresh := some ⟨some "a.ts", false⟩ }
        .raised).2 = [⟨some "a.ts", false⟩] := by
  have h := refresh_completion_not_stuck_c9
    { refreshInProgress := true, pendingRefresh := some ⟨some "a.ts", false⟩ }
    .raised .updated rfl
  exact ⟨h.1, (h.2.2.2.2 _ rfl).2⟩

theorem search_cons_current (loader : String → Option TranslationsObj)
    (key currentLocale locale : String) (rest : List String)
    (hc : locale = currentLocale) :
    searchKeyInAllLocales loader (locale :: rest) key currentLocale
      = searchKeyInAllLocales loader rest key currentLocale := by
  simp only [searchKeyInAllLocales]
  rw [if_pos hc]

theorem search_cons_loadfail (loader : String → Option TranslationsObj)
    (key currentLocale locale : String) (rest : List String)
    (hc : locale ≠ currentLocale) (hld : loader locale = none) :
    searchKeyInAllLocales loader (locale :: rest) key currentLocale
      = searchKeyInAllLocales loader rest key currentLocale := by
  simp only [searchKeyInAllLocales]
  rw [if_neg hc]
  simp only [hld]

theorem search_cons_unresolved (loader : String → Option TranslationsObj)
    (key currentLocale locale : String) (rest : List String)
    (tr : TranslationsObj) (hc : locale ≠ currentLocale)
    (hld : loader locale = some tr) (htr : getTranslation tr key = none) :
    searchKeyInAllLocales loader (locale :: rest) key currentLocale
      = searchKeyInAllLocales loader rest key currentLocale := by
  simp only [searchKeyInAllLocales]
  rw [if_neg hc]
  simp only [hld, htr]

theorem search_cons_emptyval (loader : String → Option TranslationsObj)
    (key currentLocale locale : String) (rest : List String)
    (tr : TranslationsObj) (hc : locale ≠ currentLocale)
    (hld : loader locale = some tr) (htr : getTranslation tr key = some "") :
    searchKeyInAllLocales loader (locale :: rest) key currentLocale
      = searchKeyInAllLocales loader rest key currentLocale := by
  simp only [searchKeyInAllLocales]
  rw [if_neg hc]
  simp only [hld, htr, if_pos]

theorem search_cons_hit (loader : String → Option TranslationsObj)
    (key currentLocale locale : String) (rest : List String)
    (tr : TranslationsObj) (tv : String) (hc : locale ≠ currentLocale)
    (hld : loader locale = some tr) (htr : getTranslation tr key = some tv)
    (hemp : tv ≠ "") :
    searchKeyInAllLocales loader (locale :: rest) key currentLocale
      = some (tv, locale) := by
  simp only [searchKeyInAllLocales]
  rw [if_neg hc]
  simp only [hld, htr]
  rw [if_neg hemp]

theorem searchKeyInAllLocales_some_spec
    (loader : String → Option TranslationsObj) (key currentLocale : String) :
    ∀ (locales : List String) (v loc : String),
      searchKeyInAllLocales loader locales key currentLocale = some (v, loc) →
      loc ∈ locales ∧ loc ≠ currentLocale ∧ v ≠ ""
        ∧ ∃ tr, loader loc = some tr ∧ getTranslation tr key = some v := by
  intro locales
  induction locales with
  | nil => intro v loc h; simp [searchKeyInAllLocales] at h
  | cons locale rest ih =>
    intro v loc h
    by_cases hcur : locale = currentLocale
    · rw [search_cons_current loader key currentLocale locale rest hcur] at h
      have := ih v loc h
      exact ⟨List.mem_cons_of_mem _ this.1, this.2⟩
    · cases hld : loader locale with
      | none =>
        rw [search_cons_loadfail loader key currentLocale locale rest hcur hld] at h
        have := ih v loc h
        exact ⟨List.mem_cons_of_mem _ this.1, this.2⟩
      | some tr =>
        cases htr : getTranslation tr key with
        | none =>
          rw [search_cons_unresolved loader key currentLocale locale rest tr hcur hld htr] at h
          have := ih v loc h
          exact ⟨List.mem_cons_of_mem _ this.1, this.2⟩
        | some tv =>
          by_cases hemp : tv = ""
          · subst hemp
            rw [search_cons_emptyval loader key currentLocale locale rest tr hcur hld htr] at h
            have := ih v loc h
            exact ⟨List.mem_cons_of_mem _ this.1, this.2⟩
          · rw [search_cons_hit loader key currentLocale locale rest tr tv hcur hld htr hemp] at h
            injection h with h1
            injection h1 with h2 h3
            subst h2; subst h3
            exact ⟨List.mem_cons_self _ _, hcur, hemp, tr, hld, htr⟩

theorem searchKeyInAllLocales_none_iff
    (loader : String → Option TranslationsObj) (key currentLocale : String) :
    ∀ locales : List String,
      searchKeyInAllLocales loader locales key currentLocale = none ↔
        ∀ locale ∈ locales, locale ≠ currentLocale →
          ∀ tr, loader locale = some tr →
            getTranslation tr key = none ∨ getTranslation tr key = some "" := by
  intro locales
  induction locales with
  | nil => simp [searchKeyInAllLocales]
  | cons locale rest ih =>
    by_cases hcur : locale = currentLocale
    · rw [search_cons_current loader key currentLocale locale rest hcur, ih]
      constructor
      · intro h l hl hlc tr hld
        rcases List.mem_cons.1 hl with rfl | hl2
        · exact absurd hcur hlc
        · exact h l hl2 hlc tr hld
      · intro h l hl hlc tr hld
        exact h l (List.mem_cons_of_mem _ hl) hlc tr hld
    · cases hld : loader locale with
      | none =>
        rw [search_cons_loadfail loader key currentLocale locale rest hcur hld, ih]
        constructor
        · intro h l hl hlc tr hld2
          rcases List.mem_cons.1 hl with rfl | hl2
          · rw [hld] at hld2; cases hld2
          · exact h l hl2 hlc tr hld2
        · intro h l hl hlc tr hld2
          exact h l (List.mem_cons_of_mem _ hl) hlc tr hld2
      | some tr =>
        cases htr : getTranslation tr key with
        | none =>
          rw [search_cons_unresolved loader key currentLocale locale rest tr hcur hld htr, ih]
          constructor
          · intro h l hl hlc tr2 hld2
            rcases List.mem_cons.1 hl with rfl | hl2
            · rw [hld] at hld2
              injection hld2 with h2
              subst h2
              exact Or.inl htr
            · exact h l hl2 hlc tr2 hld2
          · intro h l hl hlc tr2 hld2
            exact h l (List.mem_cons_of_mem _ hl) hlc tr2 hld2
        | some tv =>
          by_cases hemp : tv = ""
          · subst hemp
            rw [search_cons_emptyval loader key currentLocale locale rest tr hcur hld htr, ih]
            constructor
            · intro h l hl hlc tr2 hld2
              rcases List.mem_cons.1 hl with rfl | hl2
              · rw [hld] at hld2
                injection hld2 with h2
                subst h2
                exact Or.inr htr
              · exact h l hl2 hlc tr2 hld2
            · intro h l hl hlc tr2 hld2
              exact h l (List.mem_cons_of_mem _ hl) hlc tr2 hld2
          · rw [search_cons_hit loader key currentLocale locale rest tr tv hcur hld htr hemp]
            constructor
            · intro h; cases h
            · intro h
              have := h locale (List.mem_cons_self _ _) hcur tr hld
              rw [htr] at this
              rcases this with h1 | h1
              · cases h1
              · injection h1 with h2; exact absurd h2 hemp

theorem processCall_resolved (loader : String → Option TranslationsObj)
    (availableLocales : List String) (translations : TranslationsObj)
    (currentLocale : String) (call : TranslationCall) (v : String)
    (hg : getTranslation translations call.methodName = some v) (hemp : v ≠ "") :
    processCall loader availableLocales translations currentLocale call
      = { toTranslationCall := call, translationValue := some v,
          warningType := none, foundInLocale := none } := by
  unfold processCall
  simp only [hg]
  rw [if_neg hemp]

theorem processCall_fallback_hit (loader : String → Option TranslationsObj)
    (availableLocales : List String) (translations : TranslationsObj)
    (currentLocale : String) (call : TranslationCall) (tv loc : String)
    (hg : getTranslation translations call.methodName = none
        ∨ getTranslation translations call.methodName = some "")
    (hs : searchKeyInAllLocales loader availableLocales call.methodName currentLocale
        = some (tv, loc)) :
    processCall loader availableLocales translations currentLocale call
      = { toTranslationCall := call, translationValue := some tv,
          warningType := some .missingLocale, foundInLocale := some loc } := by
  unfold processCall
  rcases hg with hg | hg
  · simp only [hg, hs]
  · simp only [hg, if_pos, hs]

theorem processCall_fallback_miss (loader : String → Option TranslationsObj)
    (availableLocales : List String) (translations : TranslationsObj)
    (currentLocale : String) (call : TranslationCall)
    (hg : getTranslation translations call.methodName = none
        ∨ getTranslation translations call.methodName = some "")
    (hs : searchKeyInAllLocales loader availableLocales call.methodName currentLocale
        = none) :
    processCall loader availableLocales translations currentLocale call
      = { toTranslationCall := call, translationValue := none,
          warningType := some .noLocale, foundInLocale := none } := by
  unfold processCall
  rcases hg with hg | hg
  · simp only [hg, hs]
  · simp only [hg, if_pos, hs]

/-- Claim C3: every result of `processTranslationCallsWithWarnings` satisfies
the state invariant.  Unresolved (`warningType = noLocale`) implies a null
value; ResolvedElsewhere (`warningType = missingLocale`) implies a non-null
value and a `foundInLocale` different from the active locale. -/
theorem resolvedCall_state_invariant_c3
    (loader : String → Option TranslationsObj) (availableLocales : List String)
    (translationCalls : List TranslationCall) (translations : TranslationsObj)
    (currentLocale : String) (r : TranslationResult)
    (hr : r ∈ processTranslationCallsWithWarnings loader availableLocales
        translationCalls translations currentLocale) :
    (r.warningType = some .noLocale → r.translationValue = none)
    ∧ (r.warningType = some .missingLocale →
        r.translationValue ≠ none
        ∧ ∃ loc, r.foundInLocale = some loc ∧ loc ≠ currentLocale) := by
  obtain ⟨call, hcall, rfl⟩ := List.mem_map.1 hr
  cases hg : getTranslation translations call.methodName with
  | some v =>
    by_cases hemp : v = ""
    · subst hemp
      cases hs : searchKeyInAllLocales loader availableLocales call.methodName currentLocale with
      | some p =>
        obtain ⟨tv, loc⟩ := p
        have hspec := searchKeyInAllLocales_some_spec loader call.methodName currentLocale
          availableLocales tv loc hs
        rw [processCall_fallback_hit loader availableLocales translations currentLocale
          call tv loc (Or.inr hg) hs]
        exact ⟨fun h => by simp at h, fun _ => ⟨by simp, ⟨loc, rfl, hspec.2.1⟩⟩⟩
      | none =>
        rw [processCall_fallback_miss loader availableLocales translations currentLocale
          call (Or.inr hg) hs]
        exact ⟨fun _ => rfl, fun h => by simp at h⟩
    · rw [processCall_resolved loader availableLocales translations currentLocale call v hg hemp]
      exact ⟨fun h => by simp at h, fun h => by simp at h⟩
  | none =>
    cases hs : searchKeyInAllLocales loader availableLocales call.methodName currentLocale with
    | some p =>
      obtain ⟨tv, loc⟩ := p
      have hspec := searchKeyInAllLocales_some_spec loader call.methodName currentLocale
        availableLocales tv loc hs
      rw [processCall_fallback_hit loader availableLocales translations currentLocale
        call tv loc (Or.inl hg) hs]
      exact ⟨fun h => by simp at h, fun _ => ⟨by simp, ⟨loc, rfl, hspec.2.1⟩⟩⟩
    | none =>
      rw [processCall_fallback_miss loader availableLocales translations currentLocale
        call (Or.inl hg) hs]
      exact ⟨fun _ => rfl, fun h => by simp at h⟩

/-- Witness for C3: a key missing in the active locale but present in `de`
yields a ResolvedElsewhere result whose invariant holds. -/
theorem resolvedCall_state_invariant_c3_witness :
    processTranslationCallsWithWarnings exLoaderDe ["en", "de"] [exCallK] [] "en"
      = [{ toTranslationCall := exCallK, translationValue := some "Guten Tag",
           warningType := some .missingLocale, foundInLocale := some "de" }]
    ∧ (({ toTranslationCall := exCallK, translationValue := some "Guten Tag",
          warningType := some .missingLocale,
          foundInLocale := some "de" } : TranslationResult).warningType
            = some .missingLocale →
        ({ toTranslationCall := exCallK, translationValue := some "Guten Tag",
           warningType := some .missingLocale,
           foundInLocale := some "de" } : TranslationResult).translationValue ≠ none
        ∧ ∃ loc, ({ toTranslationCall := exCallK, translationValue := some "Guten Tag",
                    warningType := some .missingLocale,
                    foundInLocale := some "de" } : TranslationResult).foundInLocale
              = some loc ∧ loc ≠ "en") :=
  ⟨by decide,
   (resolvedCall_state_invariant_c3 exLoaderDe ["en", "de"] [exCallK] [] "en" _
     (by decide)).2⟩

/-- Claim C4 (amended): the fallback search walks the configured locale list
in declared order, skipping the excluded (current) locale; a locale whose
load fails, whose resolution fails, or whose resolved value is the empty
string (JS truthiness — the amendment) is skipped and the search continues;
the first locale resolving to a non-empty value is returned immediately,
regardless of the remaining locales (short-circuit); the result, when
present, is a genuine resolution of a non-excluded configured locale; and the
search returns null exactly when every candidate yields no non-empty value. -/
theorem fallback_search_order_c4
    (loader : String → Option TranslationsObj) (key currentLocale : String) :
    (∀ rest, searchKeyInAllLocales loader (currentLocale :: rest) key currentLocale
        = searchKeyInAllLocales loader rest key currentLocale)
    ∧ (∀ locale rest, locale ≠ currentLocale → loader locale = none →
        searchKeyInAllLocales loader (locale :: rest) key currentLocale
          = searchKeyInAllLocales loader rest key currentLocale)
    ∧ (∀ locale rest tr, locale ≠ currentLocale → loader locale = some tr →
        getTranslation tr key = none →
        searchKeyInAllLocales loader (locale :: rest) key currentLocale
          = searchKeyInAllLocales loader rest key currentLocale)
    ∧ (∀ locale rest tr, locale ≠ currentLocale → loader locale = some tr →
        getTranslation tr key = some "" →
        searchKeyInAllLocales loader (locale :: rest) key currentLocale
          = searchKeyInAllLocales loader rest key currentLocale)
    ∧ (∀ locale rest tr tv, locale ≠ currentLocale → loader locale = some tr →
        getTranslation tr key = some tv → tv ≠ "" →
        searchKeyInAllLocales loader (locale :: rest) key currentLocale
          = some (tv, locale))
    ∧ (∀ locales tv loc,
        searchKeyInAllLocales loader locales key currentLocale = some (tv, loc) →
        loc ∈ locales ∧ loc ≠ currentLocale ∧ tv ≠ ""
          ∧ ∃ tr, loader loc = some tr ∧ getTranslation tr key = some tv)
    ∧ (∀ locales, searchKeyInAllLocales loader locales key currentLocale = none ↔
        ∀ locale ∈ locales, locale ≠ currentLocale →
          ∀ tr, loader locale = some tr →
            getTranslation tr key = none ∨ getTranslation tr key = some "") := by
  refine ⟨?_, ?_, ?_, ?_, ?_, ?_, ?_⟩
  · intro rest
    exact search_cons_current loader key currentLocale currentLocale rest rfl
  · intro locale rest hc hld
    exact search_cons_loadfail loader key currentLocale locale rest hc hld
  · intro locale rest tr hc hld htr
    exact search_cons_unresolved loader key currentLocale locale rest tr hc hld htr
  · intro locale rest tr hc hld htr
    exact search_cons_emptyval loader key currentLocale locale rest tr hc hld htr
  · intro locale rest tr tv hc hld htr hemp
    exact search_cons_hit loader key currentLocale locale rest tr tv hc hld htr hemp
  · intro locales tv loc h
    exact searchKeyInAllLocales_some_spec loader key currentLocale locales tv loc h
  · intro locales
    exact searchKeyInAllLocales_none_iff loader key currentLocale locales

/-- Counterexample to C4 as stated: with locales `["en", "fr", "de"]` and
active locale `en`, the key `k` loads and resolves in `fr` (to the empty
string), yet the search skips `fr` and returns the later `de` — the claim's
"returns the first locale/value pair whose data loads and resolves the key"
is false on the code. -/
theorem fallback_search_order_c4_counterexample :
    getTranslation [("k", JValue.str "")] "k" = some ""
    ∧ exLoaderFrDe "fr" = some [("k", JValue.str "")]
    ∧ searchKeyInAllLocales exLoaderFrDe ["en", "fr", "de"] "k" "en"
        = some ("Guten Tag", "de") := by
  refine ⟨rfl, rfl, rfl⟩

/-- Witness for C4: the short-circuit conjunct at a concrete list, and the
none-characterization on a list whose only candidate fails to load. -/
theorem fallback_search_order_c4_witness :
    searchKeyInAllLocales exLoaderDe ["de", "fr"] "k" "en" = some ("Guten Tag", "de")
    ∧ searchKeyInAllLocales exLoaderDe ["en", "fr"] "k" "en" = none :=
  ⟨(fallback_search_order_c4 exLoaderDe "k" "en").2.2.2.2.1 "de" ["fr"]
      [("k", JValue.str "Guten Tag")] "Guten Tag" (by decide) rfl rfl (by decide),
   ((fallback_search_order_c4 exLoaderDe "k" "en").2.2.2.2.2.2 ["en", "fr"]).2
      (by
        intro locale hl hlc tr hld
        rcases List.mem_cons.1 hl with rfl | hl2
        · exact absurd rfl hlc
        · rcases List.mem_cons.1 hl2 with rfl | hl3
          · simp [exLoaderDe] at hld
          · cases hl3)⟩

/-- Claim C5: when the resolved leaf is a variant list whose first record
carries a usable (non-empty) first `match` value, the resolver returns that
value with exactly one trailing `*`; a number leaf, boolean leaf, empty
variant list, or variant list whose first record yields no usable match value
(including the empty string, which JS truthiness rejects) resolves to null. -/
theorem variant_leaf_policy_c5 (translations : TranslationsObj) (key : String) :
    (∀ fields vs mk v0 ms,
        resolvedLeaf translations key = some (.arr (.obj fields :: vs)) →
        lookupField fields "match" = some (.obj ((mk, .str v0) :: ms)) →
        v0 ≠ "" →
        getTranslation translations key = some (v0 ++ "*"))
    ∧ (∀ n, resolvedLeaf translations key = some (.num n) →
        getTranslation translations key = none)
    ∧ (∀ b, resolvedLeaf translations key = some (.bool b) →
        getTranslation translations key = none)
    ∧ (resolvedLeaf translations key = some (.arr []) →
        getTranslation translations key = none)
    ∧ (∀ vs, resolvedLeaf translations key = some (.arr vs) →
        processParaglideVariant vs = none →
        getTranslation translations key = none)
    ∧ (∀ vs, resolvedLeaf translations key = some (.arr vs) →
        processParaglideVariant vs = some "" →
        getTranslation translations key = none) := by
  refine ⟨?_, ?_, ?_, ?_, ?_, ?_⟩
  · intro fields vs mk v0 ms hleaf hmatch hne
    have hp : processParaglideVariant (.obj fields :: vs) = some v0 := by
      unfold processParaglideVariant
      simp only [hmatch, jsTruthy, jsObjectValues, List.map_cons, jsToString, if_pos]
    unfold getTranslation
    simp only [hleaf, hp]
    rw [if_neg hne]
  · intro n hleaf
    unfold getTranslation
    simp only [hleaf]
  · intro b hleaf
    unfold getTranslation
    simp only [hleaf]
  · intro hleaf
    unfold getTranslation
    simp only [hleaf]
    rfl
  · intro vs hleaf hp
    unfold getTranslation
    simp only [hleaf, hp]
  · intro vs hleaf hp
    unfold getTranslation
    simp only [hleaf, hp]
    simp

/-- Witness for C5: the spec §8.4 example — two variant records for
`greeting`; resolution takes the first record's first match value and appends
the marker, ignoring the second record. -/
theorem variant_leaf_policy_c5_witness :
    getTranslation exVariantTr "greeting" = some ("Hi" ++ "*") :=
  (variant_leaf_policy_c5 exVariantTr "greeting").1
    [("match", .obj [("x", .str "Hi")])]
    [.obj [("match", .obj [("x", .str "Yo")])]]
    "x" "Hi" [] rfl rfl (by decide)

theorem foldl_bind_none (segs : List String) :
    segs.foldl (fun cur seg => cur.bind (fun u => jsStep u seg)) none = none := by
  induction segs with
  | nil => rfl
  | cons seg rest ih => exact ih

theorem foldl_bind_jsStep (segs : List String) :
    ∀ v : JValue,
      segs.foldl (fun cur seg => cur.bind (fun u => jsStep u seg)) (some v)
        = descend v segs := by
  induction segs with
  | nil => intro v; rfl
  | cons seg rest ih =>
    intro v
    rw [List.foldl_cons]
    show rest.foldl (fun cur seg => cur.bind (fun u => jsStep u seg)) (jsStep v seg)
        = descend v (seg :: rest)
    cases h : jsStep v seg with
    | some v1 =>
      simp only [descend, h]
      exact ih v1
    | none =>
      simp only [descend, h]
      exact foldl_bind_none rest

/-- Claim C6 (amended): for a dotted key the resolver descends the structure
one segment at a time from the top-level object — it never falls back to a
flat top-level lookup — and the descent fails (null) as soon as a segment is
absent or the current node is not traversable; mapping nodes are traversed by
field name and array nodes by canonical numeric index (the amendment: JS
`key in array` admits index keys, so an array intermediate node does not
fail); string, number, boolean and null nodes are never traversable.  A key
without a dot gets a single flat top-level lookup. -/
theorem nested_key_resolution_c6 (translations : TranslationsObj) (key : String) :
    (jsIncludesDot key = true →
        resolvedLeaf translations key = descend (.obj translations) (jsSplitDot key))
    ∧ (jsIncludesDot key = false →
        resolvedLeaf translations key = lookupField translations key)
    ∧ (∀ v seg rest, jsStep v seg = none → descend v (seg :: rest) = none)
    ∧ (∀ fields seg, jsStep (.obj fields) seg = lookupField fields seg)
    ∧ (∀ s seg, jsStep (.str s) seg = none)
    ∧ (∀ n seg, jsStep (.num n) seg = none)
    ∧ (∀ b seg, jsStep (.bool b) seg = none)
    ∧ (∀ seg, jsStep .null seg = none) := by
  refine ⟨?_, ?_, ?_, fun _ _ => rfl, fun _ _ => rfl, fun _ _ => rfl,
    fun _ _ => rfl, fun _ => rfl⟩
  · intro hdot
    unfold resolvedLeaf
    rw [if_pos hdot]
    exact foldl_bind_jsStep (jsSplitDot key) (.obj translations)
  · intro hdot
    unfold resolvedLeaf
    rw [if_neg (by simp [hdot])]
  · intro v seg rest h
    simp only [descend, h]

/-- Counterexample to C6 as stated: in the locale data `{"a": [{"match":
{"x": "Hi"}}]}` (a valid locale-data object — the value of `a` is a variant
list), the dotted key `a.0.match.x` passes through the array node, which is
not a mapping: the claimed mapping-only descent fails, but the code resolves
the key to `"Hi"` instead of null. -/
theorem nested_key_resolution_c6_counterexample :
    lookupField exArrTr "a" = some (.arr [.obj [("match", .obj [("x", .str "Hi")])]])
    ∧ descendMappingOnly (.obj exArrTr) ["a", "0", "match", "x"] = none
    ∧ jsSplitDot "a.0.match.x" = ["a", "0", "match", "x"]
    ∧ getTranslation exArrTr "a.0.match.x" = some "Hi" :=
  ⟨rfl, rfl, rfl, rfl⟩

/-- Witness for C6: the spec §8.3 nested key resolves by segment-wise
descent. -/
theorem nested_key_resolution_c6_witness :
    jsIncludesDot "login.inputs.email" = true
    ∧ resolvedLeaf exNestedTr "login.inputs.email"
        = descend (.obj exNestedTr) (jsSplitDot "login.inputs.email") :=
  ⟨rfl, (nested_key_resolution_c6 exNestedTr "login.inputs.email").1 rfl⟩

/-- Claim C1 (amended): a call whose key resolves in the active-locale data to
a non-empty string leaf is assigned the Resolved state (`warningType = null`)
with that string as its value, at the call's position in the output.  The
conclusion does not mention `loader` or `availableLocales`, and the statement
holds for all of them: the fallback search over other locales contributes
nothing to such a call. -/
theorem resolved_in_active_locale_c1
    (loader : String → Option TranslationsObj) (availableLocales : List String)
    (text : String) (translations : TranslationsObj) (currentLocale : String)
    (i : Nat) (call : TranslationCall) (v : String)
    (hcall : (findTranslationCalls text)[i]? = some call)
    (hleaf : resolvedLeaf translations call.methodName = some (.str v))
    (hne : v ≠ "") :
    (processTranslationCallsWithWarnings loader availableLocales
        (findTranslationCalls text) translations currentLocale)[i]?
      = some { toTranslationCall := call, translationValue := some v,
               warningType := none, foundInLocale := none } := by
  have hg : getTranslation translations call.methodName = some v := by
    unfold getTranslation
    simp only [hleaf]
  unfold processTranslationCallsWithWarnings
  rw [List.getElem?_map, hcall]
  simp only [Option.map_some']
  rw [processCall_resolved loader availableLocales translations currentLocale call v hg hne]

/-- Counterexample to C1 as stated: the key `greeting` resolves in the active
locale to the string leaf `""` (returned verbatim by the resolver), yet the
pipeline treats the empty string as falsy, invokes the fallback search, and
marks the call Unresolved (`noLocale`) with a null value instead of Resolved
with value `""`. -/
theorem resolved_in_active_locale_c1_counterexample :
    resolvedLeaf [("greeting", JValue.str "")] "greeting" = some (.str "")
    ∧ getTranslation [("greeting", JValue.str "")] "greeting" = some ""
    ∧ (processTranslationCallsWithWarnings (fun _ => none) ["en"]
        (findTranslationCalls "m.greeting()") [("greeting", JValue.str "")] "en")[0]?
      = some { toTranslationCall :=
                 { methodName := "greeting", params := "", start := 0,
                   endPos := 12, keyType := .flat },
               translationValue := none, warningType := some .noLocale,
               foundInLocale := none } :=
  ⟨rfl, rfl, by decide⟩

/-- Witness for C1: `m.greeting()` against `{"greeting": "Hello"}` resolves in
place, with a loader that fails for every locale. -/
theorem resolved_in_active_locale_c1_witness :
    (processTranslationCallsWithWarnings (fun _ => none) ["en"]
        (findTranslationCalls "m.greeting()") [("greeting", JValue.str "Hello")] "en")[0]?
      = some { toTranslationCall :=
                 { methodName := "greeting", params := "", start := 0,
                   endPos := 12, keyType := .flat },
               translationValue := some "Hello", warningType := none,
               foundInLocale := none } :=
  resolved_in_active_locale_c1 (fun _ => none) ["en"] "m.greeting()"
    [("greeting", JValue.str "Hello")] "en" 0
    { methodName := "greeting", params := "", start := 0, endPos := 12, keyType := .flat }
    "Hello" (by decide) rfl (by decide)

/-- Claim C8: `loadTranslations` returns null without raising when the file is
missing, unreadable, or fails to parse — but a file whose text parses to a
non-mapping top-level value (here the number 42) is returned as-is, violating
the claim's (and the function's declared) contract: the source never
validates the parsed shape. -/
theorem loadTranslations_shape_c8 :
    loadTranslations .missing jsonParseNum42 = none
    ∧ loadTranslations .unreadable jsonParseNum42 = none
    ∧ loadTranslations (.content "not json") (fun _ => none) = none
    ∧ loadTranslations (.content "42") jsonParseNum42 = some (.num 42) :=
  ⟨rfl, rfl, rfl, rfl⟩

theorem getTranslationData_mem_spec
    (loader : String → Option TranslationsObj) (availableLocales : List String)
    (projectPath text : String) (e : TranslationKeyData)
    (he : e ∈ getTranslationData loader availableLocales projectPath text) :
    e.locales ≠ []
    ∧ ∀ ld ∈ e.locales,
        ld.workspacePath = projectPath ∧ ld.locale ∈ availableLocales
        ∧ ∃ tr, loader ld.locale = some tr ∧ getTranslation tr e.key = some ld.value := by
  obtain ⟨call, hcall, hsome⟩ := List.mem_filterMap.1 he
  by_cases hemp : (localesFor loader availableLocales projectPath call.methodName).isEmpty
  · rw [if_pos hemp] at hsome
    cases hsome
  · rw [if_neg hemp] at hsome
    injection hsome with he2
    subst he2
    constructor
    · intro hnil
      simp only at hnil
      exact hemp (by rw [hnil]; rfl)
    · intro ld hld
      obtain ⟨locale, hlocale, hmatch⟩ := List.mem_filterMap.1 hld
      cases htr : loader locale with
      | none =>
        simp only [htr] at hmatch
        exact Option.noConfusion hmatch
      | some tr =>
        simp only [htr] at hmatch
        cases hv : getTranslation tr call.methodName with
        | none =>
          simp only [hv] at hmatch
          exact Option.noConfusion hmatch
        | some v =>
          simp only [hv] at hmatch
          injection hmatch with hmk
          subst hmk
          exact ⟨rfl, hlocale, tr, htr, hv⟩

/-- Claim C10: every entry of the sidebar data has a non-empty locale list in
which every element records a successful (non-null) resolution of the entry's
key in that locale's loaded data; a key that resolves in no configured locale
never appears in the output. -/
theorem sidebar_data_c10
    (loader : String → Option TranslationsObj) (availableLocales : List String)
    (projectPath text : String) :
    (∀ e ∈ getTranslationData loader availableLocales projectPath text,
        e.locales ≠ []
        ∧ ∀ ld ∈ e.locales,
            ld.workspacePath = projectPath ∧ ld.locale ∈ availableLocales
            ∧ ∃ tr, loader ld.locale = some tr ∧ getTranslation tr e.key = some ld.value)
    ∧ (∀ k, (∀ locale ∈ availableLocales, ∀ tr, loader locale = some tr →
          getTranslation tr k = none) →
        ∀ e ∈ getTranslationData loader availableLocales projectPath text,
          e.key ≠ k) := by
  constructor
  · intro e he
    exact getTranslationData_mem_spec loader availableLocales projectPath text e he
  · intro k hk e he hke
    obtain ⟨hne, hall⟩ :=
      getTranslationData_mem_spec loader availableLocales projectPath text e he
    obtain ⟨ld, hld⟩ := List.exists_mem_of_ne_nil _ hne
    obtain ⟨_, hlocale, tr, htr, hv⟩ := hall ld hld
    rw [hke] at hv
    rw [hk ld.locale hlocale tr htr] at hv
    cases hv

/-- Witness for C10: a single call `m.hello()` against English data produces
one entry with one locale record belonging to a successful resolution. -/
theorem sidebar_data_c10_witness :
    getTranslationData exLoaderEn ["en"] "proj" "m.hello()"
      = [{ key := "hello",
           locales := [{ locale := "en", value := "Hi", workspacePath := "proj" }] }]
    ∧ ({ key := "hello",
         locales := [{ locale := "en", value := "Hi",
                       workspacePath := "proj" }] } : TranslationKeyData).locales ≠ [] :=
  ⟨by decide,
   ((sidebar_data_c10 exLoaderEn ["en"] "proj" "m.hello()").1 _ (by decide)).1⟩

theorem parenTail_lt (cs : List Char) (j e : Nat) (ps : String)
    (h : parenTail cs j = some (e, ps)) : j < e := by
  simp only [parenTail] at h
  split at h
  · split at h
    · injection h with h1
      injection h1 with h2 h3
      omega
    · exact Option.noConfusion h
  · exact Option.noConfusion h

theorem matchFlatAt_some (cs : List Char) (p : Nat) (c : TranslationCall)
    (h : matchFlatAt cs p = some c) :
    c.start = p ∧ p < c.endPos ∧ cs[p + 1]? = some '.' := by
  simp only [matchFlatAt] at h
  split at h
  next hcond =>
    split at h
    next c0 hc0 =>
      split at h
      next hident =>
        split at h
        next e ps hpt =>
          injection h with h1
          subst h1
          have hlt := parenTail_lt cs _ e ps hpt
          refine ⟨rfl, ?_, hcond.2.2⟩
          show p < e
          omega
        next => exact Option.noConfusion h
      next => exact Option.noConfusion h
    next => exact Option.noConfusion h
  next => exact Option.noConfusion h

theorem nestedTail_some (cs : List Char) (p : Nat) (q : Char) (k : Nat)
    (c : TranslationCall) (h : nestedTail cs p q k = some c) :
    c.start = p ∧ p < c.endPos := by
  unfold nestedTail at h
  split at h
  next hcond =>
    split at h
    next e ps hpt =>
      injection h with h1
      subst h1
      have hlt := parenTail_lt cs _ e ps hpt
      refine ⟨rfl, ?_⟩
      show p < e
      omega
    next => exact Option.noConfusion h
  next => exact Option.noConfusion h

theorem nestedTryK_some (cs : List Char) (p : Nat) (q : Char) :
    ∀ (k : Nat) (c : TranslationCall), nestedTryK cs p q k = some c →
      c.start = p ∧ p < c.endPos := by
  intro k
  induction k with
  | zero => intro c h; exact Option.noConfusion h
  | succ n ih =>
    intro c h
    unfold nestedTryK at h
    split at h
    next c0 heq =>
      injection h with h1
      subst h1
      exact nestedTail_some cs p q (n + 1) c0 heq
    next => exact ih c h

theorem matchNestedAt_some (cs : List Char) (p : Nat) (c : TranslationCall)
    (h : matchNestedAt cs p = some c) :
    c.start = p ∧ p < c.endPos ∧ cs[p + 1]? = some '[' := by
  unfold matchNestedAt at h
  split at h
  next hcond =>
    split at h
    next q hq =>
      split at h
      next hqd =>
        have hk := nestedTryK_some cs p q _ c h
        exact ⟨hk.1, hk.2, hcond.2.2⟩
      next => exact Option.noConfusion h
    next => exact Option.noConfusion h
  next => exact Option.noConfusion h

theorem scanLoop_start_ge (m : List Char → Nat → Option TranslationCall)
    (cs : List Char)
    (hm : ∀ p c, m cs p = some c → c.start = p ∧ p < c.endPos) :
    ∀ (fuel p : Nat) (c : TranslationCall),
      c ∈ scanLoop m cs fuel p → p ≤ c.start := by
  intro fuel
  induction fuel with
  | zero => intro p c hc; simp [scanLoop] at hc
  | succ n ih =>
    intro p c hc
    simp only [scanLoop] at hc
    cases hmv : m cs p with
    | some c0 =>
      simp only [hmv] at hc
      rcases List.mem_cons.1 hc with rfl | hc2
      · exact Nat.le_of_eq (hm p c hmv).1.symm
      · have h0 := hm p c0 hmv
        have h1 := ih c0.endPos c hc2
        omega
    | none =>
      simp only [hmv] at hc
      have h1 := ih (p + 1) c hc
      omega

theorem scanLoop_pairwise (m : List Char → Nat → Option TranslationCall)
    (cs : List Char)
    (hm : ∀ p c, m cs p = some c → c.start = p ∧ p < c.endPos) :
    ∀ fuel p : Nat,
      (scanLoop m cs fuel p).Pairwise (fun a b => a.start < b.start) := by
  intro fuel
  induction fuel with
  | zero => intro p; simp [scanLoop]
  | succ n ih =>
    intro p
    simp only [scanLoop]
    cases hmv : m cs p with
    | some c0 =>
      refine List.Pairwise.cons ?_ (ih _)
      intro b hb
      have h0 := hm p c0 hmv
      have hb2 := scanLoop_start_ge m cs hm n c0.endPos b hb
      omega
    | none => exact ih _

theorem scanLoop_mem_match (m : List Char → Nat → Option TranslationCall)
    (cs : List Char) :
    ∀ (fuel p : Nat) (c : TranslationCall),
      c ∈ scanLoop m cs fuel p → ∃ q, m cs q = some c := by
  intro fuel
  induction fuel with
  | zero => intro p c hc; simp [scanLoop] at hc
  | succ n ih =>
    intro p c hc
    simp only [scanLoop] at hc
    cases hmv : m cs p with
    | some c0 =>
      simp only [hmv] at hc
      rcases List.mem_cons.1 hc with rfl | hc2
      · exact ⟨p, hmv⟩
      · exact ih _ c hc2
    | none =>
      simp only [hmv] at hc
      exact ih _ c hc

theorem insertByStart_perm (a : TranslationCall) :
    ∀ l : List TranslationCall, (insertByStart a l).Perm (a :: l) := by
  intro l
  induction l with
  | nil => exact List.Perm.refl _
  | cons b bs ih =>
    unfold insertByStart
    by_cases hle : a.start ≤ b.start
    · rw [if_pos hle]
    · rw [if_neg hle]
      exact (List.Perm.cons b ih).trans (List.Perm.swap a b bs)

theorem sortByStart_perm :
    ∀ l : List TranslationCall, (sortByStart l).Perm l := by
  intro l
  induction l with
  | nil => exact List.Perm.refl _
  | cons a as ih =>
    unfold sortByStart
    exact (insertByStart_perm a (sortByStart as)).trans (List.Perm.cons a ih)

theorem insertByStart_sorted (a : TranslationCall) :
    ∀ l : List TranslationCall,
      l.Pairwise (fun x y => x.start ≤ y.start) →
      (insertByStart a l).Pairwise (fun x y => x.start ≤ y.start) := by
  intro l
  induction l with
  | nil => intro _; simp [insertByStart]
  | cons b bs ih =>
    intro hp
    have hpb : ∀ x ∈ bs, b.start ≤ x.start :=
      fun x hx => List.rel_of_pairwise_cons hp hx
    have hbs := hp.of_cons
    unfold insertByStart
    by_cases hle : a.start ≤ b.start
    · rw [if_pos hle]
      refine List.Pairwise.cons ?_ hp
      intro x hx
      rcases List.mem_cons.1 hx with rfl | hx2
      · exact hle
      · exact Nat.le_trans hle (hpb x hx2)
    · rw [if_neg hle]
      refine List.Pairwise.cons ?_ (ih hbs)
      intro x hx
      rcases List.mem_cons.1 ((insertByStart_perm a bs).mem_iff.1 hx) with rfl | hx2
      · omega
      · exact hpb x hx2

theorem sortByStart_sorted :
    ∀ l : List TranslationCall,
      (sortByStart l).Pairwise (fun x y => x.start ≤ y.start) := by
  intro l
  induction l with
  | nil => simp [sortByStart]
  | cons a as ih =>
    unfold sortByStart
    exact insertByStart_sorted a (sortByStart as) ih

theorem pairwise_and_of (l : List TranslationCall)
    (R S : TranslationCall → TranslationCall → Prop)
    (hr : l.Pairwise R) (hs : l.Pairwise S) :
    l.Pairwise (fun a b => R a b ∧ S a b) := by
  induction l with
  | nil => exact List.Pairwise.nil
  | cons a as ih =>
    exact List.Pairwise.cons
      (fun x hx => ⟨List.rel_of_pairwise_cons hr hx, List.rel_of_pairwise_cons hs hx⟩)
      (ih hr.of_cons hs.of_cons)

theorem findTranslationCalls_pairwise_lt (text : String) :
    (findTranslationCalls text).Pairwise (fun a b => a.start < b.start) := by
  unfold findTranslationCalls
  have hmF : ∀ p c, matchFlatAt text.toList p = some c → c.start = p ∧ p < c.endPos :=
    fun p c h => ⟨(matchFlatAt_some _ _ _ h).1, (matchFlatAt_some _ _ _ h).2.1⟩
  have hmN : ∀ p c, matchNestedAt text.toList p = some c → c.start = p ∧ p < c.endPos :=
    fun p c h => ⟨(matchNestedAt_some _ _ _ h).1, (matchNestedAt_some _ _ _ h).2.1⟩
  have hFlt := scanLoop_pairwise matchFlatAt text.toList hmF (text.toList.length + 1) 0
  have hNlt := scanLoop_pairwise matchNestedAt text.toList hmN (text.toList.length + 1) 0
  have hcross : ∀ a ∈ scanLoop matchFlatAt text.toList (text.toList.length + 1) 0,
      ∀ b ∈ scanLoop matchNestedAt text.toList (text.toList.length + 1) 0,
        a.start ≠ b.start := by
    intro a ha b hb heq
    obtain ⟨qa, hqa⟩ := scanLoop_mem_match matchFlatAt text.toList _ _ a ha
    obtain ⟨qb, hqb⟩ := scanLoop_mem_match matchNestedAt text.toList _ _ b hb
    have h1 := matchFlatAt_some _ _ _ hqa
    have h2 := matchNestedAt_some _ _ _ hqb
    have hq : qa = qb := by omega
    rw [hq] at h1
    have : some '.' = some '[' := h1.2.2.symm.trans h2.2.2
    injection this with hch
    exact absurd hch (by decide)
  have hne : (scanLoop matchFlatAt text.toList (text.toList.length + 1) 0
      ++ scanLoop matchNestedAt text.toList (text.toList.length + 1) 0).Pairwise
        (fun a b => a.start ≠ b.start) :=
    List.pairwise_append.2
      ⟨hFlt.imp (fun h => Nat.ne_of_lt h),
       hNlt.imp (fun h => Nat.ne_of_lt h), hcross⟩
  have hperm := sortByStart_perm (scanLoop matchFlatAt text.toList (text.toList.length + 1) 0
      ++ scanLoop matchNestedAt text.toList (text.toList.length + 1) 0)
  have hne2 := (List.Perm.pairwise_iff (fun h => Ne.symm h) hperm).2 hne
  have hsorted := sortByStart_sorted (scanLoop matchFlatAt text.toList (text.toList.length + 1) 0
      ++ scanLoop matchNestedAt text.toList (text.toList.length + 1) 0)
  exact (pairwise_and_of _ _ _ hsorted hne2).imp
    (fun h => Nat.lt_of_le_of_ne h.1 h.2)

/-- Claim C7: the scanner's output is sorted ascending by `start` — strictly,
so the tie rule "a flat match precedes a nested match at equal offsets" holds
vacuously: a flat match requires `.` and a nested match requires `[` at offset
`start + 1`, so ties cannot occur — and every returned call is a match of one
of the two patterns (in particular, the output is empty when nothing
matches). -/
theorem scan_ordering_c7 (text : String) :
    (findTranslationCalls text).Pairwise (fun a b =>
        a.start ≤ b.start
        ∧ (a.start = b.start → a.keyType = .flat ∧ b.keyType = .nested))
    ∧ ∀ c ∈ findTranslationCalls text,
        (∃ q, matchFlatAt text.toList q = some c)
        ∨ (∃ q, matchNestedAt text.toList q = some c) := by
  constructor
  · exact (findTranslationCalls_pairwise_lt text).imp
      (fun h => ⟨Nat.le_of_lt h, fun heq => absurd heq (Nat.ne_of_lt h)⟩)
  · intro c hc
    unfold findTranslationCalls at hc
    rcases List.mem_append.1 ((sortByStart_perm _).mem_iff.1 hc) with h | h
    · exact Or.inl (scanLoop_mem_match matchFlatAt text.toList _ _ c h)
    · exact Or.inr (scanLoop_mem_match matchNestedAt text.toList _ _ c h)

/-- Witness for C7: a two-call text is returned in ascending offset order and
its first call is a flat-pattern match. -/
theorem scan_ordering_c7_witness :
    ((findTranslationCalls "m.a() m.b()").Pairwise (fun a b =>
        a.start ≤ b.start
        ∧ (a.start = b.start → a.keyType = .flat ∧ b.keyType = .nested)))
    ∧ ((∃ q, matchFlatAt ("m.a() m.b()").toList q
          = some { methodName := "a", params := "", start := 0, endPos := 5,
                   keyType := .flat })
        ∨ (∃ q, matchNestedAt ("m.a() m.b()").toList q
          = some { methodName := "a", params := "", start := 0, endPos := 5,
                   keyType := .flat })) :=
  ⟨(scan_ordering_c7 "m.a() m.b()").1,
   (scan_ordering_c7 "m.a() m.b()").2 _ (by decide)⟩
